import Mathlib

/-!
Shallow embedding of the `abao` crate: the fixed-capacity, append-only
vector `AbaoVec` of `src/vec.rs`, together with its error type
(`src/errors.rs`).  Machine state is modelled explicitly: the backing
buffer is a list of `Option`-tagged slots (`none` = uninitialized
`MaybeUninit` slot, `some t` = slot holding a live value), and the two
atomic counters are plain naturals.  Sequential executions are lists of
`push` calls applied in order; the read operations (`len`, `get`,
`as_slice`) do not mutate the state, so a reachable state is exactly
`run cap ts` for some list `ts` of pushed values.
-/

set_option maxHeartbeats 1000000

namespace Abao

/-- `src/errors.rs`: `pub struct OomError;` — the payload-free error
returned when a push fails because the backing buffer is exhausted. -/
inductive OomError : Type where
  | mk : OomError
  deriving DecidableEq, Repr

/-- `src/vec.rs` `AbaoVec`: `next_idx` is the write cursor (next index to
write to), `confirmed_len` the commit cursor (length of the contiguous
initialized region), `buf` the caller-supplied backing buffer of
`MaybeUninit` slots (`none` = uninitialized). -/
structure AbaoVec (T : Type) : Type where
  next_idx : Nat
  confirmed_len : Nat
  buf : List (Option T)
  deriving Repr

namespace AbaoVec

variable {T : Type}

/-- `AbaoVec::new`: both cursors start at `0` and the buffer (of the
given capacity) is entirely uninitialized. -/
def new (cap : Nat) : AbaoVec T :=
  { next_idx := 0, confirmed_len := 0, buf := List.replicate cap none }

/-- `AbaoVec::len`: loads `confirmed_len`.  The two `debug_assert!`
checks in the source are assertions, not behaviour, and are captured by
the invariant theorems below. -/
def len (v : AbaoVec T) : Nat :=
  v.confirmed_len

/-- `AbaoVec::get_unchecked`: reads the slot at `idx` straight out of the
buffer.  In the source an out-of-bounds index or an uninitialized slot is
undefined behaviour; the embedding returns `none` on exactly those
inputs, so "the UB branch is unreachable" reads as "the result is
`some _`". -/
def get_unchecked (v : AbaoVec T) (idx : Nat) : Option T :=
  (v.buf[idx]?).bind id

/-- `AbaoVec::get`: bounds-check against `len`, then do the unchecked
read. -/
def get (v : AbaoVec T) (idx : Nat) : Option T :=
  if v.len ≤ idx then none
  else v.get_unchecked idx

/-- Outcome of one sequential `AbaoVec::push` call.
`ok` — the bounds check passed, the value was written and the
`compare_exchange` from `idx` to `idx + 1` succeeded on its first
attempt.  `oom` — the claimed index was past the end of the buffer.
`stuck` — the first `compare_exchange` attempt failed; sequentially no
other thread can change `confirmed_len`, so the spin loop would busy-wait
forever (the carried state is the state the machine spins in). -/
inductive PushResult (T : Type) : Type where
  | ok (v : AbaoVec T) (idx : Nat) : PushResult T
  | oom (v : AbaoVec T) : PushResult T
  | stuck (v : AbaoVec T) (idx : Nat) : PushResult T
  deriving Repr

/-- `AbaoVec::push`, step by step as in the source:
1. claim `idx` by fetch-add on `next_idx`;
2. if `idx >= buf.len()` return `Err(OomError)`;
3. `ptr::write` the value into slot `idx`;
4. `compare_exchange` `confirmed_len` from `idx` to `idx + 1`, spinning
   until it succeeds (sequentially: `stuck` if the first attempt fails). -/
def push (v : AbaoVec T) (t : T) : PushResult T :=
  let idx := v.next_idx
  let v1 : AbaoVec T := { v with next_idx := idx + 1 }
  if v1.buf.length ≤ idx then
    PushResult.oom v1
  else
    let v2 : AbaoVec T := { v1 with buf := v1.buf.set idx (some t) }
    if v2.confirmed_len = idx then
      PushResult.ok { v2 with confirmed_len := idx + 1 } idx
    else
      PushResult.stuck v2 idx

/-- The state after a `push` call (in the `stuck` case, the state the
machine is left spinning in; the theorems below show this case never
arises from a reachable state). -/
def pushState (v : AbaoVec T) (t : T) : AbaoVec T :=
  match v.push t with
  | PushResult.ok v' _ => v'
  | PushResult.oom v' => v'
  | PushResult.stuck v' _ => v'

/-- The value a `push` call returns to its caller: `some (Except.ok idx)`
on success, `some (Except.error OomError.mk)` on capacity exhaustion, and
`none` when the call diverges in the spin loop. -/
def pushRes (v : AbaoVec T) (t : T) : Option (Except OomError Nat) :=
  match v.push t with
  | PushResult.ok _ idx => some (Except.ok idx)
  | PushResult.oom _ => some (Except.error OomError.mk)
  | PushResult.stuck _ _ => none

/-- Sequence the slots of a prefix of the buffer: `some` of the list of
values if every slot is initialized, `none` as soon as one is not.  Used
to embed the unchecked reinterpretation `&buf[0..len]  as &[T]` in
`AbaoVec::as_slice`: reinterpreting an uninitialized slot is undefined
behaviour, modelled by the `none` outcome. -/
def seqOpts : List (Option T) → Option (List T)
  | [] => some []
  | none :: _ => none
  | some a :: rest => (seqOpts rest).map (fun l => a :: l)

/-- `AbaoVec::as_slice`: the prefix `buf[0..len]` reinterpreted as a
slice of live values (`none` = the reinterpretation would touch an
uninitialized slot, which is UB in the source). -/
def as_slice (v : AbaoVec T) : Option (List T) :=
  seqOpts (v.buf.take v.len)

/-- `impl Drop for AbaoVec`: the loop visits the cells `buf[0..len]` in
order and calls `drop_in_place` on each.  `dropRun` is the list of slots
visited by that loop, in visiting order. -/
def dropRun (v : AbaoVec T) : List (Option T) :=
  v.buf.take v.len

/-- The counter invariant of the structure:
`commit_cursor ≤ min(write_cursor, capacity)`. -/
def Inv (v : AbaoVec T) : Prop :=
  v.confirmed_len ≤ min v.next_idx v.buf.length

instance (v : AbaoVec T) : Decidable (Inv v) := by
  unfold Inv; infer_instance

/-- Run a list of sequential `push` calls from a given state. -/
def runFrom (v : AbaoVec T) : List T → AbaoVec T
  | [] => v
  | t :: ts => runFrom (v.pushState t) ts

/-- The state of a capacity-`cap` vector after sequentially pushing the
values of `ts`, in order, starting from `new cap`.  Since `push` is the
only mutating operation, these are exactly the reachable states of a
sequential execution. -/
def run (cap : Nat) (ts : List T) : AbaoVec T :=
  runFrom (new cap) ts

/-! ### Basic stepping lemmas -/

theorem runFrom_append (v : AbaoVec T) (ts us : List T) :
    runFrom v (ts ++ us) = runFrom (runFrom v ts) us := by
  induction ts generalizing v with
  | nil => rfl
  | cons t ts ih => simp [runFrom, ih]

theorem set_append_len (A : List α) (b x : α) (B : List α) :
    (A ++ b :: B).set A.length x = A ++ x :: B := by
  induction A with
  | nil => rfl
  | cons a A ih => simp [List.set, ih]

/-- A sequential `push` against a state whose buffer is a fully
initialized prefix followed by `k > 0` uninitialized slots, with both
cursors at the end of the prefix, succeeds: the claimed index is the
prefix length and the first compare-exchange attempt lands. -/
theorem push_step_ok (A : List T) (k : Nat) (t : T) (hk : 0 < k) :
    push { next_idx := A.length, confirmed_len := A.length,
           buf := A.map some ++ List.replicate k (none : Option T) } t
      = PushResult.ok
          { next_idx := A.length + 1, confirmed_len := A.length + 1,
            buf := A.map some ++ (some t :: List.replicate (k - 1) (none : Option T)) }
          A.length := by
  have hrep : List.replicate k (none : Option T) = none :: List.replicate (k - 1) none := by
    cases k with
    | zero => omega
    | succ n => simp [List.replicate_succ]
  have hset : (A.map some ++ List.replicate k (none : Option T)).set A.length (some t)
      = A.map some ++ (some t :: List.replicate (k - 1) none) := by
    rw [hrep]
    have h := set_append_len (A.map some) (none : Option T) (some t)
      (List.replicate (k - 1) none)
    rw [List.length_map] at h
    exact h
  have hcond : ¬ ((A.map some ++ List.replicate k (none : Option T)).length ≤ A.length) := by
    simp; omega
  simp [push, hcond, hset]
  omega

/-- A sequential `push` whose claimed index is at or past the end of the
buffer reports `OomError` and only advances the write cursor. -/
theorem push_step_oom (v : AbaoVec T) (t : T) (h : v.buf.length ≤ v.next_idx) :
    push v t = PushResult.oom { v with next_idx := v.next_idx + 1 } := by
  simp [push, h]

/-- Closed form of every reachable sequential state: after pushing the
values of `ts` into a fresh capacity-`cap` vector, the write cursor is
`ts.length`, the commit cursor is `min ts.length cap`, and the buffer is
the first `cap` pushed values followed by uninitialized slots. -/
theorem run_state (cap : Nat) (ts : List T) :
    run cap ts
      = { next_idx := ts.length, confirmed_len := min ts.length cap,
          buf := (ts.take cap).map some
                 ++ List.replicate (cap - ts.length) (none : Option T) } := by
  induction ts using List.reverseRecOn with
  | nil => simp [run, runFrom, new]
  | append_singleton ts t ih =>
    have hrun : run cap (ts ++ [t]) = (run cap ts).pushState t := by
      simp [run, runFrom_append, runFrom]
    rcases Nat.lt_or_ge ts.length cap with hc | hc
    · have htake : ts.take cap = ts := List.take_of_length_le (Nat.le_of_lt hc)
      have htake' : (ts ++ [t]).take cap = ts ++ [t] :=
        List.take_of_length_le (by simp; omega)
      have hmin : min ts.length cap = ts.length := by omega
      have hst : run cap ts
          = { next_idx := ts.length, confirmed_len := ts.length,
              buf := ts.map some
                     ++ List.replicate (cap - ts.length) (none : Option T) } := by
        rw [ih, htake, hmin]
      have hlen2 : (ts ++ [t]).length = ts.length + 1 := by simp
      rw [hrun, hst]
      unfold pushState
      rw [push_step_ok ts (cap - ts.length) t (by omega)]
      rw [htake', hlen2]
      simp only [AbaoVec.mk.injEq, List.map_append, List.map_cons, List.map_nil,
        List.append_assoc, List.cons_append, List.nil_append]
      refine ⟨trivial, by omega, ?_⟩
      have h3 : cap - ts.length - 1 = cap - (ts.length + 1) := by omega
      rw [h3]
    · have htake : (ts ++ [t]).take cap = ts.take cap :=
        List.take_append_of_le_length hc
      have hlen : (run cap ts).buf.length ≤ (run cap ts).next_idx := by
        rw [ih]
        simp [List.length_take]
        omega
      have hlen2 : (ts ++ [t]).length = ts.length + 1 := by simp
      rw [hrun]
      unfold pushState
      rw [push_step_oom _ t hlen]
      rw [ih]
      rw [htake, hlen2]
      simp only [AbaoVec.mk.injEq]
      refine ⟨trivial, by omega, ?_⟩
      have h3 : cap - ts.length = cap - (ts.length + 1) := by omega
      rw [h3]

/-! ### Derived facts about reachable states -/

theorem run_next_idx (cap : Nat) (ts : List T) : (run cap ts).next_idx = ts.length := by
  rw [run_state]

theorem run_len (cap : Nat) (ts : List T) : (run cap ts).len = min ts.length cap := by
  rw [len, run_state]

theorem run_buf (cap : Nat) (ts : List T) :
    (run cap ts).buf
      = (ts.take cap).map some ++ List.replicate (cap - ts.length) (none : Option T) := by
  rw [run_state]

theorem run_buf_length (cap : Nat) (ts : List T) : (run cap ts).buf.length = cap := by
  rw [run_buf]
  simp [List.length_take]
  omega

theorem run_buf_getElem (cap : Nat) (ts : List T) (i : Nat)
    (h : i < min ts.length cap) :
    (run cap ts).buf[i]? = some ts[i]? := by
  rw [run_buf]
  rw [List.getElem?_append_left (by simp [List.length_take]; omega)]
  rw [List.getElem?_map]
  rw [List.getElem?_take]
  rw [if_pos (by omega)]
  rw [List.getElem?_eq_getElem (show i < ts.length by omega)]
  simp

theorem run_buf_take_len (cap : Nat) (ts : List T) :
    (run cap ts).buf.take (run cap ts).len = (ts.take cap).map some := by
  rw [run_buf, run_len]
  have h : min ts.length cap = ((ts.take cap).map some).length := by
    simp [List.length_take]
    omega
  rw [h, List.take_left]

theorem run_get_eq (cap : Nat) (ts : List T) (i : Nat) :
    (run cap ts).get i = if i < min ts.length cap then ts[i]? else none := by
  rw [get, run_len]
  rcases Nat.lt_or_ge i (min ts.length cap) with h | h
  · rw [if_neg (by omega), if_pos h, get_unchecked, run_buf_getElem cap ts i h]
    simp
  · rw [if_pos (by omega), if_neg (by omega)]

theorem seqOpts_map_some (l : List T) : seqOpts (l.map some) = some l := by
  induction l with
  | nil => rfl
  | cons a l ih => simp [seqOpts, ih]

/-- From a reachable state with spare capacity, `push` succeeds, returns
the claimed index, and steps to the reachable successor state. -/
theorem push_run_ok (cap : Nat) (ts : List T) (t : T) (h : ts.length < cap) :
    push (run cap ts) t = PushResult.ok (run cap (ts ++ [t])) ts.length := by
  have htake : ts.take cap = ts := List.take_of_length_le (Nat.le_of_lt h)
  have hst : run cap ts
      = { next_idx := ts.length, confirmed_len := ts.length,
          buf := ts.map some ++ List.replicate (cap - ts.length) (none : Option T) } := by
    rw [run_state, htake]
    congr 1
    omega
  have htake' : (ts ++ [t]).take cap = ts ++ [t] :=
    List.take_of_length_le (by simp; omega)
  have hlen2 : (ts ++ [t]).length = ts.length + 1 := by simp
  rw [hst, push_step_ok ts (cap - ts.length) t (by omega)]
  rw [run_state, htake', hlen2]
  simp only [PushResult.ok.injEq, AbaoVec.mk.injEq, List.map_append, List.map_cons,
    List.map_nil, List.append_assoc, List.cons_append, List.nil_append]
  refine ⟨⟨trivial, by omega, ?_⟩, trivial⟩
  have h3 : cap - ts.length - 1 = cap - (ts.length + 1) := by omega
  rw [h3]

/-- From a reachable state with no spare capacity, `push` claims an index
past the buffer, reports `OomError`, and only the write cursor moves. -/
theorem push_run_oom (cap : Nat) (ts : List T) (t : T) (h : cap ≤ ts.length) :
    push (run cap ts) t = PushResult.oom (run cap (ts ++ [t])) := by
  have hlen : (run cap ts).buf.length ≤ (run cap ts).next_idx := by
    rw [run_buf_length, run_next_idx]
    exact h
  have htake : (ts ++ [t]).take cap = ts.take cap :=
    List.take_append_of_le_length h
  have hlen2 : (ts ++ [t]).length = ts.length + 1 := by simp
  rw [push_step_oom _ t hlen]
  rw [run_state, run_state, htake, hlen2]
  simp only [PushResult.oom.injEq, AbaoVec.mk.injEq]
  refine ⟨trivial, by omega, ?_⟩
  have h3 : cap - ts.length = cap - (ts.length + 1) := by omega
  rw [h3]

/-- `pushState` agrees with appending the pushed value to the trace. -/
theorem pushState_run (cap : Nat) (ts : List T) (t : T) :
    pushState (run cap ts) t = run cap (ts ++ [t]) := by
  simp only [run, runFrom_append, runFrom]

/-- A single sequential `push` from an arbitrary state never lowers the
commit cursor, hence never lowers `len`. -/
theorem len_le_pushState (v : AbaoVec T) (t : T) : v.len ≤ (v.pushState t).len := by
  unfold pushState push
  by_cases h1 : v.buf.length ≤ v.next_idx
  · simp [h1, len]
  · simp only [h1, if_false]
    by_cases h2 : v.confirmed_len = v.next_idx
    · simp [h2, len]
    · simp [h2, len]

/-- A single sequential `push` from an arbitrary state preserves the
counter invariant. -/
theorem inv_pushState (v : AbaoVec T) (t : T) (h : Inv v) : Inv (v.pushState t) := by
  unfold Inv at h
  unfold pushState push
  by_cases h1 : v.buf.length ≤ v.next_idx
  · simp only [h1, if_true]
    unfold Inv
    simp
    omega
  · simp only [h1, if_false]
    by_cases h2 : v.confirmed_len = v.next_idx
    · simp only [h2, if_pos]
      unfold Inv
      simp [List.length_set]
      omega
    · simp only [h2, if_false]
      unfold Inv
      simp [List.length_set]
      omega

/-! ### Claim theorems -/

/-- C1: for a container of capacity `cap`, every push after `i` earlier
pushes succeeds and returns the claim index `i` when `i < cap`, and
returns the capacity-exhausted `OomError` when `i ≥ cap`; since the write
cursor only grows with the trace, once exhausted no later push ever
succeeds again. -/
theorem push_capacity_boundary (cap : Nat) (ts : List T) (t : T) :
    pushRes (run cap ts) t
      = some (if ts.length < cap then Except.ok ts.length
              else Except.error OomError.mk) := by
  unfold pushRes
  rcases Nat.lt_or_ge ts.length cap with h | h
  · rw [push_run_ok cap ts t h, if_pos h]
  · rw [push_run_oom cap ts t h, if_neg (by omega)]

/-- C2: for every index `i` below the current `len`, `get i` returns
exactly the value passed to the push that claimed index `i`, and the
same value is still returned after any further sequence of pushes
(slots are write-once). -/
theorem get_write_once (cap : Nat) (ts us : List T) (i : Nat)
    (h : i < (run cap ts).len) :
    (run cap ts).get i = ts[i]? ∧ (run cap (ts ++ us)).get i = ts[i]? := by
  rw [run_len] at h
  constructor
  · rw [run_get_eq, if_pos h]
  · rw [run_get_eq, if_pos (by simp; omega)]
    exact List.getElem?_append_left (by omega)

theorem get_write_once_witness :
    (1 < (run 2 [(10 : Nat), 20]).len) ∧
    ((run 2 [(10 : Nat), 20]).get 1 = [(10 : Nat), 20][1]? ∧
     (run 2 ([(10 : Nat), 20] ++ [30])).get 1 = [(10 : Nat), 20][1]?) :=
  ⟨by decide, get_write_once 2 [10, 20] [30] 1 (by decide)⟩

/-- C3: the invariant `commit_cursor ≤ min(write_cursor, capacity)` holds
in the state produced by `new`, is preserved by `push` from any state
(the read operations do not mutate the state), and therefore holds in
every reachable state `run cap ts`. -/
theorem counter_invariant_everywhere (cap : Nat) (ts : List T) :
    Inv (new cap : AbaoVec T) ∧
    (∀ (v : AbaoVec T) (t : T), Inv v → Inv (v.pushState t)) ∧
    Inv (run cap ts) := by
  refine ⟨?_, fun v t h => inv_pushState v t h, ?_⟩
  · simp [Inv, new]
  · unfold Inv
    rw [run_state]
    simp [List.length_take]
    omega

theorem counter_invariant_everywhere_witness :
    Inv (new 2 : AbaoVec Nat) ∧ Inv (pushState (new 2 : AbaoVec Nat) 5) :=
  ⟨(counter_invariant_everywhere 2 ([] : List Nat)).1,
   (counter_invariant_everywhere 2 ([] : List Nat)).2.1 (new 2) 5 (by decide)⟩

/-- C4: `get i` returns the value committed at claim index `i` when
`i < len`, and `none` otherwise — absence, not an error, for every
out-of-range index including those at or beyond capacity. -/
theorem get_prefix_or_none (cap : Nat) (ts : List T) (i : Nat) :
    (run cap ts).get i = if i < (run cap ts).len then ts[i]? else none := by
  rw [run_get_eq, run_len]

/-- C5: in every reachable state, `as_slice` is a defined view (no
uninitialized slot is touched) whose list of elements is exactly the
first `cap` pushed values: it has exactly `len` elements and its `j`-th
element is the value committed at claim index `j`, with no gap below
`len`. -/
theorem as_slice_no_gaps (cap : Nat) (ts : List T) :
    (run cap ts).as_slice = some (ts.take cap) ∧
    (ts.take cap).length = (run cap ts).len ∧
    (∀ j, j < (run cap ts).len → (ts.take cap)[j]? = ts[j]?) := by
  refine ⟨?_, ?_, ?_⟩
  · rw [as_slice, run_buf_take_len, seqOpts_map_some]
  · rw [run_len]
    simp [List.length_take]
    omega
  · intro j hj
    rw [run_len] at hj
    rw [List.getElem?_take, if_pos (by omega)]

theorem as_slice_no_gaps_witness :
    (run 2 [(7 : Nat), 8, 9]).as_slice = some ([(7 : Nat), 8, 9].take 2) ∧
    (0 < (run 2 [(7 : Nat), 8, 9]).len ∧
     ([(7 : Nat), 8, 9].take 2)[0]? = [(7 : Nat), 8, 9][0]?) :=
  ⟨(as_slice_no_gaps 2 [7, 8, 9]).1,
   by decide, (as_slice_no_gaps 2 [7, 8, 9]).2.2 0 (by decide)⟩

/-- C6: tearing down a container whose commit cursor is `k = len` visits
exactly the slots `[0, k)`, each holding a live value destructed once (the
visited cells are precisely `some` of the committed values, in order), and
every slot in `[k, capacity)` — claimed-but-unpublished or never claimed —
holds no live value, so nothing outside `[0, k)` is destructed. -/
theorem teardown_exactly_committed (cap : Nat) (ts : List T) :
    dropRun (run cap ts) = (ts.take cap).map some ∧
    (dropRun (run cap ts)).length = (run cap ts).len ∧
    (∀ i x, (run cap ts).len ≤ i → (run cap ts).buf[i]? = some x → x = none) := by
  have h1 : dropRun (run cap ts) = (ts.take cap).map some := run_buf_take_len cap ts
  refine ⟨h1, ?_, ?_⟩
  · rw [h1, run_len]
    simp [List.length_take]
    omega
  · intro i x hi hx
    rw [run_len] at hi
    rcases Nat.lt_or_ge i cap with hc | hc
    · rw [run_buf] at hx
      rw [List.getElem?_append_right (by simp [List.length_take]; omega)] at hx
      simp only [List.length_map, List.length_take] at hx
      rw [List.getElem?_replicate, if_pos (by omega)] at hx
      exact (Option.some.inj hx).symm
    · rw [List.getElem?_eq_none (by rw [run_buf_length]; omega)] at hx
      cases hx

theorem teardown_exactly_committed_witness :
    ((run 2 [(4 : Nat)]).len ≤ 1 ∧ (run 2 [(4 : Nat)]).buf[1]? = some none) ∧
    (none : Option Nat) = none :=
  ⟨⟨by decide, by decide⟩,
   (teardown_exactly_committed 2 [4]).2.2 1 none (by decide) (by decide)⟩

/-- C7: `len` is non-decreasing over time — it never shrinks across any
later segment of the trace, and a single `push` from any state (whether it
succeeds, fails, or would spin) never lowers it; reads do not mutate the
state at all. -/
theorem len_monotone (cap : Nat) (ts us : List T) :
    (run cap ts).len ≤ (run cap (ts ++ us)).len ∧
    (∀ (v : AbaoVec T) (t : T), v.len ≤ (v.pushState t).len) := by
  refine ⟨?_, fun v t => len_le_pushState v t⟩
  rw [run_len cap ts, run_len cap (ts ++ us)]
  simp

/-- C8 counterexample: a failed push does not return or keep the caller's
value — the entire outcome of `push` on a full container is identical for
two distinct values (the error `OomError` carries no payload and the state
records nothing about the value), so the value cannot be recovered from
the call. -/
theorem push_fail_value_lost :
    push (new 0 : AbaoVec Nat) 0 = push (new 0 : AbaoVec Nat) 1 ∧
    pushRes (new 0 : AbaoVec Nat) 0 = some (Except.error OomError.mk) ∧
    (0 : Nat) ≠ 1 :=
  ⟨rfl, rfl, by decide⟩

/-- C8 (amended): when a push fails with the capacity-exhausted error,
the error is the payload-free `OomError` and the container does not absorb
the value — buffer and commit cursor are unchanged — but the value is
consumed by the call, not handed back to the caller. -/
theorem push_fail_no_retention (cap : Nat) (ts : List T) (t : T)
    (h : cap ≤ ts.length) :
    pushRes (run cap ts) t = some (Except.error OomError.mk) ∧
    (pushState (run cap ts) t).buf = (run cap ts).buf ∧
    (pushState (run cap ts) t).confirmed_len = (run cap ts).confirmed_len := by
  have hlen : (run cap ts).buf.length ≤ (run cap ts).next_idx := by
    rw [run_buf_length, run_next_idx]
    exact h
  have hp := push_step_oom (run cap ts) t hlen
  refine ⟨?_, ?_, ?_⟩
  · unfold pushRes
    rw [hp]
  · unfold pushState
    rw [hp]
  · unfold pushState
    rw [hp]

theorem push_fail_no_retention_witness :
    (1 ≤ ([(3 : Nat)] : List Nat).length) ∧
    (pushRes (run 1 [(3 : Nat)]) 9 = some (Except.error OomError.mk) ∧
     (pushState (run 1 [(3 : Nat)]) 9).buf = (run 1 [(3 : Nat)]).buf ∧
     (pushState (run 1 [(3 : Nat)]) 9).confirmed_len
       = (run 1 [(3 : Nat)]).confirmed_len) :=
  ⟨by decide, push_fail_no_retention 1 [3] 9 (by decide)⟩

/-- C9: in sequential execution a `push` never ends in the spin loop —
the compare-exchange from `idx` to `idx + 1` succeeds on its first
attempt (so the busy-wait body never runs and `push` terminates),
because whenever there is spare capacity the commit cursor already
equals the write cursor, i.e. the claimed index. -/
theorem sequential_publish_first_try (cap : Nat) (ts : List T) (t : T) :
    (∀ (v : AbaoVec T) (i : Nat), push (run cap ts) t ≠ PushResult.stuck v i) ∧
    (ts.length < cap → (run cap ts).confirmed_len = (run cap ts).next_idx) := by
  constructor
  · intro v i heq
    rcases Nat.lt_or_ge ts.length cap with h | h
    · rw [push_run_ok cap ts t h] at heq
      cases heq
    · rw [push_run_oom cap ts t h] at heq
      cases heq
  · intro h
    rw [run_state]
    simp
    omega

theorem sequential_publish_first_try_witness :
    (push (run 2 [(5 : Nat)]) 7 ≠ PushResult.stuck (new 2) 0) ∧
    (([(5 : Nat)] : List Nat).length < 2 ∧
     (run 2 [(5 : Nat)]).confirmed_len = (run 2 [(5 : Nat)]).next_idx) :=
  ⟨(sequential_publish_first_try 2 [5] 7).1 (new 2) 0,
   by decide, (sequential_publish_first_try 2 [5] 7).2 (by decide)⟩

/-- C10: whenever the checked read path of `get` reaches the unchecked
read, the index is inside the buffer and the slot is initialized (the
embedding's undefined-behaviour branch, modelled as `none` from
`get_unchecked`, is unreachable), and `get` agrees with the unchecked
read there; `get` is total for every index, and on a capacity-0
container it always returns `none`. -/
theorem get_unchecked_in_bounds (cap : Nat) (ts : List T) (idx : Nat) :
    (idx < (run cap ts).len →
      ((run cap ts).get_unchecked idx).isSome = true ∧
      idx < (run cap ts).buf.length ∧
      (run cap ts).get idx = (run cap ts).get_unchecked idx) ∧
    (run (T := T) 0 ts).get idx = none := by
  constructor
  · intro h
    rw [run_len] at h
    have hg : (run cap ts).get_unchecked idx = ts[idx]? := by
      rw [get_unchecked, run_buf_getElem cap ts idx h]
      simp
    refine ⟨?_, ?_, ?_⟩
    · rw [hg, List.getElem?_eq_getElem (show idx < ts.length by omega)]
      rfl
    · rw [run_buf_length]
      omega
    · rw [run_get_eq, if_pos h, hg]
  · rw [run_get_eq]
    simp

theorem get_unchecked_in_bounds_witness :
    (0 < (run 2 [(5 : Nat)]).len) ∧
    (((run 2 [(5 : Nat)]).get_unchecked 0).isSome = true ∧
     0 < (run 2 [(5 : Nat)]).buf.length ∧
     (run 2 [(5 : Nat)]).get 0 = (run 2 [(5 : Nat)]).get_unchecked 0) :=
  ⟨by decide, (get_unchecked_in_bounds 2 [5] 0).1 (by decide)⟩

end AbaoVec

end Abao
